import Mathlib

/-!
Shallow embedding of the coupled-oscillator simulator
(`src/coupled_oscillators.py`) over exact rationals.

State vectors and numpy 1-D arrays are modelled as `List ℚ`; numpy
elementwise arithmetic becomes `List.map` / `List.zipWith`.  The 2-D
stiffness matrix handled by `make_positive_definite` is modelled as a
Mathlib `Matrix` over `ℚ`; the library eigensolver `np.linalg.eigh` is a
black box, so the conditioner is parametrised by the eigenvalue vector
and eigenvector matrix it returns, and theorems that need them assume
the defining properties of an eigendecomposition explicitly.
-/

/-- Python class `Oscillator`: one mass together with its row of the
conditioned stiffness matrix. -/
structure Oscillator where
  mass : ℚ
  k_row : List ℚ

/-- Dot product of two equal-length vectors, as computed by `np.dot`
on 1-D arrays (for mismatched lengths numpy raises; `zipWith`
truncates, and every use below is at matched lengths). -/
def dot (xs ys : List ℚ) : ℚ :=
  (List.zipWith (fun a b => a * b) xs ys).sum

/-- Python `equationOfBlock(oscillator, displacements)`:
`(-np.dot(oscillator.k_row, displacements)) / oscillator.mass`. -/
def equationOfBlock (oscillator : Oscillator) (displacements : List ℚ) : ℚ :=
  (-(dot oscillator.k_row displacements)) / oscillator.mass

/-- Python `derivatives(t, y, oscillators)`.  With `n = len(oscillators)`
the code fills `dydt[:n]` with `y[n:]` and `dydt[n+i]` with
`equationOfBlock(oscillators[i], y[:n])`; for a state of length `2n`
this is exactly the concatenation below (for other state lengths the
numpy broadcast raises, and every caller passes length `2n`).  The time
argument `t` is accepted but unused, as in the source. -/
def derivatives (t : ℚ) (y : List ℚ) (oscillators : List Oscillator) : List ℚ :=
  y.drop oscillators.length ++
    oscillators.map (fun o => equationOfBlock o (y.take oscillators.length))

/-- Elementwise scalar multiplication `c * v` of a scalar with a numpy
array. -/
def smul (c : ℚ) (v : List ℚ) : List ℚ :=
  v.map (fun x => c * x)

/-- Elementwise scalar division `v / c` of a numpy array by a scalar. -/
def vdiv (v : List ℚ) (c : ℚ) : List ℚ :=
  v.map (fun x => x / c)

/-- Elementwise addition of two numpy arrays. -/
def vadd (v w : List ℚ) : List ℚ :=
  List.zipWith (fun a b => a + b) v w

/-- One iteration of the loop body of `runge_kutta_4`: the classical
four-stage Runge-Kutta update from state `y` at time `ti` with step
`h`, transcribed line by line from the source. -/
def rk4Step (f : ℚ → List ℚ → List Oscillator → List ℚ) (ti h : ℚ) (y : List ℚ)
    (oscillators : List Oscillator) : List ℚ :=
  let k1 := smul h (f ti y oscillators)
  let k2 := smul h (f (ti + h / 2) (vadd y (vdiv k1 2)) oscillators)
  let k3 := smul h (f (ti + h / 2) (vadd y (vdiv k2 2)) oscillators)
  let k4 := smul h (f (ti + h) (vadd y k3) oscillators)
  vadd y (vdiv (vadd (vadd (vadd k1 (smul 2 k2)) (smul 2 k3)) k4) 6)

/-- The rows produced by the integration loop of `runge_kutta_4`,
starting from row `y` at grid point `tPrev` with the remaining grid
points `ts` still to process. -/
def rk4Traj (f : ℚ → List ℚ → List Oscillator → List ℚ) (y : List ℚ) (tPrev : ℚ)
    (ts : List ℚ) (oscillators : List Oscillator) : List (List ℚ) :=
  match ts with
  | [] => [y]
  | tNext :: rest =>
      y :: rk4Traj f (rk4Step f tPrev (tNext - tPrev) y oscillators) tNext rest oscillators

/-- Python `runge_kutta_4(f, y0, t, oscillators)`.  The source
preallocates `y = np.zeros((len(t), len(y0)))` and then executes
`y[0] = y0`; on an empty grid that assignment raises `IndexError`
(axis 0 has size 0), modelled as `none`.  Otherwise the filled rows are
exactly `rk4Traj`. -/
def runge_kutta_4 (f : ℚ → List ℚ → List Oscillator → List ℚ) (y0 : List ℚ)
    (t : List ℚ) (oscillators : List Oscillator) : Option (List (List ℚ)) :=
  match t with
  | [] => none
  | t0 :: ts => some (rk4Traj f y0 t0 ts oscillators)

/-- Consecutive differences of a grid: `diffs t` lists
`t[i+1] - t[i]` for each adjacent pair. -/
def diffs (t : List ℚ) : List ℚ :=
  List.zipWith (fun a b => b - a) t t.tail

/-- Maximum of the absolute values of a list, with `0` for the empty
list (`np.max` on a nonempty array of absolute values agrees, since all
entries are nonnegative; numpy raises on an empty reduction, which no
caller reaches for a positive oscillator count). -/
def maxAbsList (xs : List ℚ) : ℚ :=
  xs.foldr (fun x m => max |x| m) 0

/-- Python `np.max(np.abs(solution[:, :n]))`: the largest absolute
displacement over the whole trajectory. -/
def maxAmplitude (solution : List (List ℚ)) (n : ℕ) : ℚ :=
  solution.foldr (fun row m => max (maxAbsList (row.take n)) m) 0

/-- The zero-trajectory guard of `plot_animation`: after integration it
raises `ValueError("All displacement values are zero. ...")` when
`max_amplitude == 0`, and otherwise proceeds to rendering. -/
def plot_animation_check (solution : List (List ℚ)) (n : ℕ) : Except String Unit :=
  if maxAmplitude solution n = 0 then
    Except.error "All displacement values are zero. Please check the input data."
  else Except.ok ()

/-- The module-level caller: `plot_animation` runs inside
`try/except ValueError`, and an error is printed as `"Error:", e` and
execution continues (rendering is skipped); a normal return renders. -/
def reportOrRender (r : Except String Unit) : String :=
  match r with
  | Except.error e => "Error: " ++ e
  | Except.ok _ => "rendered"

/-- The eigenvalue clamp of `make_positive_definite`:
`eigvals[eigvals < 0] = 1e-6` replaces each negative eigenvalue by the
floor `1e-6 = 1/1000000` and leaves nonnegative eigenvalues unchanged. -/
def clampEig (l : ℚ) : ℚ :=
  if l < 0 then 1 / 1000000 else l

/-- The symmetrisation `k_matrix = (k_matrix + k_matrix.T) / 2`
performed by `plot_animation` before conditioning. -/
def symmetrize {n : ℕ} (K : Matrix (Fin n) (Fin n) ℚ) : Matrix (Fin n) (Fin n) ℚ :=
  Matrix.of fun i j => (K i j + K j i) / 2

/-- Python `make_positive_definite(k_matrix)`:
`eigvals, eigvecs = np.linalg.eigh(k_matrix)` followed by clamping and
`eigvecs @ np.diag(eigvals) @ eigvecs.T`.  The eigensolver is a library
black box, so the function is parametrised by the pair it returns;
theorems assume the eigendecomposition properties (orthogonality of
`eigvecs`, reconstruction of the input) where they are needed. -/
def make_positive_definite {n : ℕ} (eigvals : Fin n → ℚ)
    (eigvecs : Matrix (Fin n) (Fin n) ℚ) : Matrix (Fin n) (Fin n) ℚ :=
  eigvecs * Matrix.diagonal (fun i => clampEig (eigvals i)) * eigvecs.transpose

/-- The oscillator-list construction of `plot_animation`:
`[Oscillator(masses[i], k_matrix[i]) for i in range(n)]`.  Indexing
past the end of `masses` or of the matrix raises `IndexError`,
modelled as `none`. -/
def buildOscillators (n : ℕ) (masses : List ℚ) (kRows : List (List ℚ)) :
    Option (List Oscillator) :=
  if n ≤ masses.length ∧ n ≤ kRows.length then
    some ((List.range n).map fun i => ⟨masses.getD i 0, kRows.getD i []⟩)
  else none

/-- The computational core of `plot_animation` downstream of stiffness
conditioning (`kRows` are the rows of the already conditioned matrix,
since the eigensolver itself is a black box): build the oscillator
list, form `y0 = np.concatenate([initial_displacements,
initial_velocities])`, and integrate.  The source contains no input
validation whatsoever before this point. -/
def simulate_core (n : ℕ) (masses : List ℚ) (kRows : List (List ℚ))
    (d0 v0 : List ℚ) (t : List ℚ) : Option (List (List ℚ)) :=
  match buildOscillators n masses kRows with
  | none => none
  | some oscillators => runge_kutta_4 derivatives (d0 ++ v0) t oscillators

/-- Length bookkeeping for `derivatives`: the output has the length of
the input state whenever the state is at least as long as the
oscillator list. -/
lemma derivatives_length (t : ℚ) (y : List ℚ) (osc : List Oscillator)
    (h : osc.length ≤ y.length) : (derivatives t y osc).length = y.length := by
  simp only [derivatives, List.length_append, List.length_drop, List.length_map]
  omega

/-- C2: for an oscillator set of size n and a state of length 2n, the
derivative vector has length 2n, its first n entries are the velocity
portion `y[n..2n)` of the state, and entry `n + i` is the acceleration
`-(couplingRow_i . displacements) / mass_i` computed from the
displacement sub-vector `y[0..n)`. -/
theorem derivatives_spec (n : ℕ) (t : ℚ) (y : List ℚ) (osc : List Oscillator)
    (hosc : osc.length = n) (hy : y.length = n + n) :
    (derivatives t y osc).length = n + n
    ∧ (∀ i, i < n → (derivatives t y osc)[i]? = y[n + i]?)
    ∧ (∀ i o, osc[i]? = some o →
        (derivatives t y osc)[n + i]? = some (-(dot o.k_row (y.take n)) / o.mass)) := by
  subst hosc
  have hlen : (y.drop osc.length).length = osc.length := by
    simp only [List.length_drop]
    omega
  refine ⟨?_, ?_, ?_⟩
  · rw [derivatives_length t y osc (by omega), hy]
  · intro i hi
    simp only [derivatives]
    rw [List.getElem?_append, if_pos (by rw [hlen]; exact hi)]
    exact List.getElem?_drop y osc.length i
  · intro i o ho
    simp only [derivatives]
    rw [List.getElem?_append_right (by rw [hlen]; omega), hlen]
    simp [Nat.add_sub_cancel_left, List.getElem?_map, ho, equationOfBlock]

/-- Witness for C2 at a concrete one-oscillator input. -/
theorem derivatives_spec_witness :
    ([Oscillator.mk 4 [5]].length = 1 ∧ [(2:ℚ), 3].length = 1 + 1)
    ∧ ((derivatives 7 [2, 3] [Oscillator.mk 4 [5]]).length = 1 + 1
        ∧ (∀ i, i < 1 → (derivatives 7 [2, 3] [Oscillator.mk 4 [5]])[i]? = [(2:ℚ), 3][1 + i]?)
        ∧ (∀ i o, [Oscillator.mk 4 [5]][i]? = some o →
            (derivatives 7 [2, 3] [Oscillator.mk 4 [5]])[1 + i]?
              = some (-(dot o.k_row ([(2:ℚ), 3].take 1)) / o.mass))) :=
  ⟨⟨rfl, rfl⟩, derivatives_spec 1 7 [2, 3] [Oscillator.mk 4 [5]] rfl rfl⟩

/-- C6 counterexample: on the empty time grid the integrator does not
return the single-row trajectory `[y0]`; the preallocated array has
zero rows and the assignment `y[0] = y0` raises `IndexError` (modelled
as `none`). -/
theorem runge_kutta_4_empty_grid_counterexample :
    runge_kutta_4 derivatives [1, 0] [] [Oscillator.mk 1 [1]] = none := rfl

/-- C6 amended: a grid of length 1 yields the single-row trajectory
`[y0]` and raises no error, but a grid of length 0 raises an indexing
error (no trajectory at all) instead of yielding `[y0]`. -/
theorem runge_kutta_4_degenerate_grid (f : ℚ → List ℚ → List Oscillator → List ℚ)
    (y0 : List ℚ) (t0 : ℚ) (osc : List Oscillator) :
    runge_kutta_4 f y0 [t0] osc = some [y0]
    ∧ runge_kutta_4 f y0 [] osc = none :=
  ⟨rfl, rfl⟩

/-- The Runge-Kutta step applied to the time-independent system
right-hand side does not depend on the base time, only on the step. -/
lemma rk4Step_time_irrelevant (a b h : ℚ) (y : List ℚ) (osc : List Oscillator) :
    rk4Step derivatives a h y osc = rk4Step derivatives b h y osc := rfl

/-- Two grids with the same consecutive differences drive the
integration loop identically for the time-independent system. -/
lemma rk4Traj_diffs_eq :
    ∀ (ts ts' : List ℚ) (t0 t0' : ℚ) (y : List ℚ) (osc : List Oscillator),
      ts.length = ts'.length → diffs (t0 :: ts) = diffs (t0' :: ts') →
      rk4Traj derivatives y t0 ts osc = rk4Traj derivatives y t0' ts' osc := by
  intro ts
  induction ts with
  | nil =>
    intro ts' t0 t0' y osc hlen _
    cases ts' with
    | nil => rfl
    | cons a l => simp at hlen
  | cons t1 r ih =>
    intro ts' t0 t0' y osc hlen hd
    cases ts' with
    | nil => simp at hlen
    | cons t1' r' =>
      simp only [diffs, List.tail_cons, List.zipWith_cons_cons, List.cons.injEq] at hd
      obtain ⟨h1, h2⟩ := hd
      have hstep : rk4Step derivatives t0 (t1 - t0) y osc
          = rk4Step derivatives t0' (t1' - t0') y osc := by
        rw [← h1]
        exact rk4Step_time_irrelevant t0 t0' (t1 - t0) y osc
      simp only [rk4Traj]
      rw [hstep]
      exact congrArg (List.cons y)
        (ih r' t1 t1' _ osc (by simpa using hlen) (by simp only [diffs, List.tail_cons]; exact h2))

/-- C10: the system right-hand side ignores its time argument, and the
trajectory produced by the integrator depends on the grid only through
its consecutive differences. -/
theorem derivatives_time_invariance :
    (∀ (t1 t2 : ℚ) (y : List ℚ) (osc : List Oscillator),
      derivatives t1 y osc = derivatives t2 y osc)
    ∧ ∀ (y0 : List ℚ) (osc : List Oscillator) (t t' : List ℚ),
        t.length = t'.length → diffs t = diffs t' →
        runge_kutta_4 derivatives y0 t osc = runge_kutta_4 derivatives y0 t' osc := by
  refine ⟨fun t1 t2 y osc => rfl, ?_⟩
  intro y0 osc t t' hlen hd
  cases t with
  | nil =>
    cases t' with
    | nil => rfl
    | cons a l => simp at hlen
  | cons t0 ts =>
    cases t' with
    | nil => simp at hlen
    | cons t0' ts' =>
      simp only [runge_kutta_4]
      exact congrArg some (rk4Traj_diffs_eq ts ts' t0 t0' y0 osc (by simpa using hlen) hd)

/-- Witness for C10 on the shifted grids `[0, 1]` and `[5, 6]`. -/
theorem derivatives_time_invariance_witness :
    ([(0:ℚ), 1].length = [(5:ℚ), 6].length ∧ diffs [0, 1] = diffs [5, 6])
    ∧ runge_kutta_4 derivatives [1, 0] [0, 1] [Oscillator.mk 1 [1]]
        = runge_kutta_4 derivatives [1, 0] [5, 6] [Oscillator.mk 1 [1]] :=
  ⟨⟨rfl, by norm_num [diffs]⟩,
    derivatives_time_invariance.2 [1, 0] [Oscillator.mk 1 [1]] [0, 1] [5, 6] rfl (by norm_num [diffs])⟩

/-- The first row produced by the integration loop is the state it was
entered with. -/
lemma rk4Traj_head (f : ℚ → List ℚ → List Oscillator → List ℚ) (y : List ℚ) (t0 : ℚ)
    (ts : List ℚ) (osc : List Oscillator) : (rk4Traj f y t0 ts osc)[0]? = some y := by
  cases ts <;> simp [rk4Traj]

/-- Each row of the integration loop after the first is the Runge-Kutta
step from the previous row over the corresponding grid interval. -/
lemma rk4Traj_get_succ (f : ℚ → List ℚ → List Oscillator → List ℚ) (osc : List Oscillator) :
    ∀ (ts : List ℚ) (t0 : ℚ) (y : List ℚ) (i : ℕ) (ti ti1 : ℚ) (yi : List ℚ),
      (t0 :: ts)[i]? = some ti → (t0 :: ts)[i + 1]? = some ti1 →
      (rk4Traj f y t0 ts osc)[i]? = some yi →
      (rk4Traj f y t0 ts osc)[i + 1]? = some (rk4Step f ti (ti1 - ti) yi osc) := by
  intro ts
  induction ts with
  | nil =>
    intro t0 y i ti ti1 yi h0 h1 hy
    rcases i with _ | j <;> simp at h1
  | cons t1 r ih =>
    intro t0 y i ti ti1 yi h0 h1 hy
    rcases i with _ | j
    · obtain rfl : t0 = ti := by simpa using h0
      obtain rfl : t1 = ti1 := by simpa using h1
      obtain rfl : y = yi := by simpa [rk4Traj] using hy
      simp only [rk4Traj, List.getElem?_cons_succ]
      exact rk4Traj_head f _ t1 r osc
    · rw [List.getElem?_cons_succ] at h0 h1
      simp only [rk4Traj] at hy ⊢
      rw [List.getElem?_cons_succ] at hy ⊢
      exact ih t1 (rk4Step f t0 (t1 - t0) y osc) j ti ti1 yi h0 h1 hy

/-- C1: over each consecutive pair of grid points `t_i, t_{i+1}` with
step `h = t_{i+1} - t_i`, the integrator advances the stored state by
the classical four-stage Runge-Kutta rule
`k1 = h*f(t_i, y_i)`, `k2 = h*f(t_i + h/2, y_i + k1/2)`,
`k3 = h*f(t_i + h/2, y_i + k2/2)`, `k4 = h*f(t_i + h, y_i + k3)`,
`y_{i+1} = y_i + (k1 + 2*k2 + 2*k3 + k4)/6`. -/
theorem runge_kutta_4_step_rule (f : ℚ → List ℚ → List Oscillator → List ℚ)
    (y0 : List ℚ) (t : List ℚ) (osc : List Oscillator) (traj : List (List ℚ))
    (htraj : runge_kutta_4 f y0 t osc = some traj)
    (i : ℕ) (ti ti1 : ℚ) (yi : List ℚ)
    (hti : t[i]? = some ti) (hti1 : t[i + 1]? = some ti1) (hyi : traj[i]? = some yi) :
    traj[i + 1]? = some
      (let h := ti1 - ti
       let k1 := smul h (f ti yi osc)
       let k2 := smul h (f (ti + h / 2) (vadd yi (vdiv k1 2)) osc)
       let k3 := smul h (f (ti + h / 2) (vadd yi (vdiv k2 2)) osc)
       let k4 := smul h (f (ti + h) (vadd yi k3) osc)
       vadd yi (vdiv (vadd (vadd (vadd k1 (smul 2 k2)) (smul 2 k3)) k4) 6)) := by
  cases t with
  | nil => simp [runge_kutta_4] at htraj
  | cons t0 ts =>
    have htraj' : traj = rk4Traj f y0 t0 ts osc := by
      simpa [runge_kutta_4] using htraj.symm
    subst htraj'
    exact rk4Traj_get_succ f osc ts t0 y0 i ti ti1 yi hti hti1 hyi

/-- Witness for C1: one step on a single unit oscillator over the grid
interval from 0 to 1. -/
theorem runge_kutta_4_step_rule_witness :
    (runge_kutta_4 derivatives [1, 0] [0, 1] [Oscillator.mk 1 [1]]
        = some [[1, 0], [13/24, -5/6]]
      ∧ [(0:ℚ), 1][0]? = some 0
      ∧ [(0:ℚ), 1][1]? = some 1
      ∧ [[(1:ℚ), 0], [13/24, -5/6]][0]? = some [(1:ℚ), 0])
    ∧ [[(1:ℚ), 0], [13/24, -5/6]][1]? = some [(13/24 : ℚ), -5/6] := by
  have hcomp : runge_kutta_4 derivatives [1, 0] [0, 1] [Oscillator.mk 1 [1]]
      = some [[1, 0], [13/24, -5/6]] := by
    norm_num [runge_kutta_4, rk4Traj, rk4Step, derivatives, equationOfBlock, dot, smul, vdiv, vadd]
  refine ⟨⟨hcomp, rfl, rfl, rfl⟩, ?_⟩
  have h := runge_kutta_4_step_rule derivatives [1, 0] [0, 1] [Oscillator.mk 1 [1]]
    [[1, 0], [13/24, -5/6]] hcomp 0 0 1 [1, 0] rfl rfl rfl
  refine h.trans ?_
  norm_num [derivatives, equationOfBlock, dot, smul, vdiv, vadd]

/-- The integration loop produces one more row than there are remaining
grid points. -/
lemma rk4Traj_length (f : ℚ → List ℚ → List Oscillator → List ℚ) (osc : List Oscillator) :
    ∀ (ts : List ℚ) (t0 : ℚ) (y : List ℚ),
      (rk4Traj f y t0 ts osc).length = ts.length + 1 := by
  intro ts
  induction ts with
  | nil => intro t0 y; rfl
  | cons t1 r ih => intro t0 y; simp [rk4Traj, ih]

/-- A single Runge-Kutta step preserves the state length whenever the
right-hand side does. -/
lemma rk4Step_length (f : ℚ → List ℚ → List Oscillator → List ℚ) (osc : List Oscillator)
    (L : ℕ) (hf : ∀ (t : ℚ) (y : List ℚ), y.length = L → (f t y osc).length = L)
    (ti h : ℚ) (y : List ℚ) (hy : y.length = L) :
    (rk4Step f ti h y osc).length = L := by
  have hsmul : ∀ (c : ℚ) (z : List ℚ), z.length = L → (smul c z).length = L := by
    intro c z hz
    simpa [smul] using hz
  have hvdiv : ∀ (z : List ℚ) (c : ℚ), z.length = L → (vdiv z c).length = L := by
    intro z c hz
    simpa [vdiv] using hz
  have hvadd : ∀ (z w : List ℚ), z.length = L → w.length = L → (vadd z w).length = L := by
    intro z w hz hw
    simp [vadd, List.length_zipWith, hz, hw]
  have hk1 := hsmul h _ (hf ti y hy)
  have hk2 := hsmul h _ (hf (ti + h / 2) _ (hvadd y _ hy (hvdiv _ 2 hk1)))
  have hk3 := hsmul h _ (hf (ti + h / 2) _ (hvadd y _ hy (hvdiv _ 2 hk2)))
  have hk4 := hsmul h _ (hf (ti + h) _ (hvadd y _ hy hk3))
  exact hvadd y _ hy
    (hvdiv _ 6 (hvadd _ _ (hvadd _ _ (hvadd _ _ hk1 (hsmul 2 _ hk2)) (hsmul 2 _ hk3)) hk4))

/-- Every row produced by the integration loop keeps the state length,
whenever the right-hand side preserves it. -/
lemma rk4Traj_rows_length (f : ℚ → List ℚ → List Oscillator → List ℚ)
    (osc : List Oscillator) (L : ℕ)
    (hf : ∀ (t : ℚ) (y : List ℚ), y.length = L → (f t y osc).length = L) :
    ∀ (ts : List ℚ) (t0 : ℚ) (y : List ℚ), y.length = L →
      ∀ row ∈ rk4Traj f y t0 ts osc, row.length = L := by
  intro ts
  induction ts with
  | nil =>
    intro t0 y hy row hrow
    simp only [rk4Traj, List.mem_singleton] at hrow
    subst hrow
    exact hy
  | cons t1 r ih =>
    intro t0 y hy row hrow
    simp only [rk4Traj, List.mem_cons] at hrow
    rcases hrow with rfl | hrow
    · exact hy
    · exact ih t1 _ (rk4Step_length f osc L hf t0 (t1 - t0) y hy) row hrow

/-- C5: whenever the integrator returns a trajectory (it does so for
every nonempty grid), the trajectory has exactly as many rows as the
grid has points, every row has length 2n, and row 0 is exactly the
concatenation of the initial displacements and initial velocities. -/
theorem runge_kutta_4_shape (n : ℕ) (osc : List Oscillator) (d v : List ℚ) (t : List ℚ)
    (traj : List (List ℚ)) (hosc : osc.length = n) (hd : d.length = n) (hv : v.length = n)
    (htraj : runge_kutta_4 derivatives (d ++ v) t osc = some traj) :
    traj.length = t.length ∧ traj[0]? = some (d ++ v) ∧ ∀ row ∈ traj, row.length = n + n := by
  cases t with
  | nil => simp [runge_kutta_4] at htraj
  | cons t0 ts =>
    have htraj' : traj = rk4Traj derivatives (d ++ v) t0 ts osc := by
      simpa [runge_kutta_4] using htraj.symm
    subst htraj'
    have hy0 : (d ++ v).length = n + n := by simp [hd, hv]
    have hf : ∀ (s : ℚ) (y : List ℚ), y.length = n + n → (derivatives s y osc).length = n + n := by
      intro s y hy
      rw [derivatives_length s y osc (by omega)]
      exact hy
    refine ⟨?_, rk4Traj_head derivatives (d ++ v) t0 ts osc, ?_⟩
    · simp [rk4Traj_length]
    · exact rk4Traj_rows_length derivatives osc (n + n) hf ts t0 (d ++ v) hy0

/-- Witness for C5 on a three-point grid for one oscillator. -/
theorem runge_kutta_4_shape_witness :
    ([Oscillator.mk 4 [5]].length = 1 ∧ [(2:ℚ)].length = 1 ∧ [(3:ℚ)].length = 1
      ∧ runge_kutta_4 derivatives ([(2:ℚ)] ++ [3]) [0, 1, 3] [Oscillator.mk 4 [5]]
          = some [[2, 3], [625/192, -253/384], [-2629/1536, -3239/3072]])
    ∧ ([[(2:ℚ), 3], [625/192, -253/384], [-2629/1536, -3239/3072]].length = [(0:ℚ), 1, 3].length
        ∧ [[(2:ℚ), 3], [625/192, -253/384], [-2629/1536, -3239/3072]][0]? = some ([(2:ℚ)] ++ [3])
        ∧ ∀ row ∈ [[(2:ℚ), 3], [625/192, -253/384], [-2629/1536, -3239/3072]],
            row.length = 1 + 1) := by
  have hcomp : runge_kutta_4 derivatives ([(2:ℚ)] ++ [3]) [0, 1, 3] [Oscillator.mk 4 [5]]
      = some [[2, 3], [625/192, -253/384], [-2629/1536, -3239/3072]] := by
    norm_num [runge_kutta_4, rk4Traj, rk4Step, derivatives, equationOfBlock, dot, smul, vdiv, vadd]
  exact ⟨⟨rfl, rfl, rfl, hcomp⟩,
    runge_kutta_4_shape 1 [Oscillator.mk 4 [5]] [2] [3] [0, 1, 3] _ rfl rfl rfl hcomp⟩

/-- The running maximum of absolute values is nonnegative. -/
lemma maxAbsList_nonneg (xs : List ℚ) : 0 ≤ maxAbsList xs := by
  induction xs with
  | nil => simp [maxAbsList]
  | cons x l ih => exact le_trans ih (le_max_right _ _)

/-- The maximum absolute value of a list vanishes exactly when every
entry is zero. -/
lemma maxAbsList_eq_zero_iff (xs : List ℚ) : maxAbsList xs = 0 ↔ ∀ x ∈ xs, x = 0 := by
  induction xs with
  | nil => simp [maxAbsList]
  | cons x l ih =>
    have hM : maxAbsList (x :: l) = max |x| (maxAbsList l) := rfl
    rw [hM]
    constructor
    · intro h
      have hx : |x| = 0 := le_antisymm (by rw [← h]; exact le_max_left _ _) (abs_nonneg x)
      have hl : maxAbsList l = 0 :=
        le_antisymm (by rw [← h]; exact le_max_right _ _) (maxAbsList_nonneg l)
      intro y hy
      rcases List.mem_cons.mp hy with rfl | hy
      · exact abs_eq_zero.mp hx
      · exact (ih.mp hl) y hy
    · intro h
      rw [h x (List.mem_cons_self x l), ih.mpr fun y hy => h y (List.mem_cons_of_mem x hy)]
      simp

/-- The overall maximum displacement amplitude is nonnegative. -/
lemma maxAmplitude_nonneg (sol : List (List ℚ)) (n : ℕ) : 0 ≤ maxAmplitude sol n := by
  induction sol with
  | nil => simp [maxAmplitude]
  | cons row rest ih => exact le_trans ih (le_max_right _ _)

/-- The maximum displacement amplitude vanishes exactly when every
displacement entry of every row is zero. -/
lemma maxAmplitude_eq_zero_iff (sol : List (List ℚ)) (n : ℕ) :
    maxAmplitude sol n = 0 ↔ ∀ row ∈ sol, ∀ x ∈ row.take n, x = 0 := by
  induction sol with
  | nil => simp [maxAmplitude]
  | cons row rest ih =>
    have hM : maxAmplitude (row :: rest) n = max (maxAbsList (row.take n)) (maxAmplitude rest n) :=
      rfl
    rw [hM]
    constructor
    · intro h
      have h1 : maxAbsList (row.take n) = 0 :=
        le_antisymm (by rw [← h]; exact le_max_left _ _) (maxAbsList_nonneg _)
      have h2 : maxAmplitude rest n = 0 :=
        le_antisymm (by rw [← h]; exact le_max_right _ _) (maxAmplitude_nonneg rest n)
      intro r hr
      rcases List.mem_cons.mp hr with rfl | hr
      · exact (maxAbsList_eq_zero_iff _).mp h1
      · exact (ih.mp h2) r hr
    · intro h
      rw [(maxAbsList_eq_zero_iff _).mpr (h row (List.mem_cons_self row rest)),
        ih.mpr fun r hr => h r (List.mem_cons_of_mem row hr)]
      simp

/-- C7: the InvalidTrajectory condition (the `ValueError` raised by
`plot_animation` after integration) is signalled if and only if every
displacement entry across the entire trajectory is exactly zero, and
the module-level caller surfaces it as a printed report (rendering is
skipped) rather than a crash. -/
theorem invalid_trajectory_iff (sol : List (List ℚ)) (n : ℕ) :
    ((plot_animation_check sol n ≠ Except.ok ()) ↔ ∀ row ∈ sol, ∀ x ∈ row.take n, x = 0)
    ∧ reportOrRender (plot_animation_check sol n)
        = if maxAmplitude sol n = 0
          then "Error: All displacement values are zero. Please check the input data."
          else "rendered" := by
  constructor
  · rw [← maxAmplitude_eq_zero_iff]
    unfold plot_animation_check
    by_cases h : maxAmplitude sol n = 0
    · simp [h]
    · simp [h]
  · unfold plot_animation_check reportOrRender
    by_cases h : maxAmplitude sol n = 0
    · simp [h]
    · simp [h]

/-- The dot product against an all-zero displacement vector is zero. -/
lemma dot_replicate_zero (xs : List ℚ) : ∀ m, dot xs (List.replicate m 0) = 0 := by
  induction xs with
  | nil =>
    intro m
    cases m <;> simp [dot]
  | cons x l ih =>
    intro m
    cases m with
    | zero => simp [dot]
    | succ k =>
      have := ih k
      simp only [dot, List.replicate_succ, List.zipWith_cons_cons, List.sum_cons] at this ⊢
      rw [mul_zero, zero_add, this]

/-- Every acceleration over an all-zero displacement vector is zero. -/
lemma map_equationOfBlock_zero (l : List Oscillator) (m : ℕ) :
    (l.map fun o => equationOfBlock o (List.replicate m 0)) = List.replicate l.length 0 := by
  induction l with
  | nil => rfl
  | cons o r ih =>
    simp only [List.map_cons, List.length_cons, List.replicate_succ, ih]
    simp [equationOfBlock, dot_replicate_zero]

/-- The system right-hand side maps the zero state to the zero state. -/
lemma derivatives_zero (t : ℚ) (osc : List Oscillator) :
    derivatives t (List.replicate (osc.length + osc.length) 0) osc
      = List.replicate (osc.length + osc.length) 0 := by
  simp only [derivatives, List.drop_replicate, List.take_replicate]
  have h1 : osc.length + osc.length - osc.length = osc.length := by omega
  have h2 : osc.length ⊓ (osc.length + osc.length) = osc.length := by omega
  rw [h1, h2, map_equationOfBlock_zero, ← List.replicate_add]

/-- A Runge-Kutta step for the oscillator system fixes the zero
state. -/
lemma rk4Step_zero (ti h : ℚ) (osc : List Oscillator) :
    rk4Step derivatives ti h (List.replicate (osc.length + osc.length) 0) osc
      = List.replicate (osc.length + osc.length) 0 := by
  have hsm : ∀ c : ℚ, smul c (List.replicate (osc.length + osc.length) (0:ℚ))
      = List.replicate (osc.length + osc.length) 0 := by
    intro c
    simp [smul, List.map_replicate]
  have hvd : ∀ c : ℚ, vdiv (List.replicate (osc.length + osc.length) (0:ℚ)) c
      = List.replicate (osc.length + osc.length) 0 := by
    intro c
    simp [vdiv, List.map_replicate]
  have hva : vadd (List.replicate (osc.length + osc.length) (0:ℚ))
      (List.replicate (osc.length + osc.length) 0)
      = List.replicate (osc.length + osc.length) 0 := by
    simp [vadd, List.zipWith_replicate]
  simp only [rk4Step, derivatives_zero, hsm, hvd, hva]

/-- The whole integration loop fixes the zero state. -/
lemma rk4Traj_zero (osc : List Oscillator) :
    ∀ (ts : List ℚ) (t0 : ℚ),
      rk4Traj derivatives (List.replicate (osc.length + osc.length) 0) t0 ts osc
        = List.replicate (ts.length + 1) (List.replicate (osc.length + osc.length) 0) := by
  intro ts
  induction ts with
  | nil => intro t0; rfl
  | cons t1 r ih =>
    intro t0
    simp only [rk4Traj, rk4Step_zero, ih, List.length_cons]
    rw [List.replicate_succ, List.replicate_succ]
    rfl

/-- C8: from all-zero initial displacements and velocities the
integrator produces an all-zero trajectory (the zero state is a fixed
point of every Runge-Kutta step), and the zero-amplitude InvalidTrajectory
condition is triggered on it. -/
theorem zero_initial_state_zero_trajectory (osc : List Oscillator) (t : List ℚ)
    (traj : List (List ℚ))
    (htraj : runge_kutta_4 derivatives
        (List.replicate osc.length 0 ++ List.replicate osc.length 0) t osc = some traj) :
    (∀ row ∈ traj, row = List.replicate (osc.length + osc.length) 0)
    ∧ maxAmplitude traj osc.length = 0 := by
  rw [← List.replicate_add] at htraj
  cases t with
  | nil => simp [runge_kutta_4] at htraj
  | cons t0 ts =>
    have htraj' : traj = rk4Traj derivatives (List.replicate (osc.length + osc.length) 0) t0 ts osc := by
      simpa [runge_kutta_4] using htraj.symm
    subst htraj'
    rw [rk4Traj_zero]
    constructor
    · intro row hrow
      exact List.eq_of_mem_replicate hrow
    · rw [maxAmplitude_eq_zero_iff]
      intro row hrow x hx
      rw [List.eq_of_mem_replicate hrow, List.take_replicate] at hx
      exact List.eq_of_mem_replicate hx

/-- Witness for C8: one oscillator at rest at the origin over a
two-point grid. -/
theorem zero_initial_state_zero_trajectory_witness :
    (runge_kutta_4 derivatives
        (List.replicate [Oscillator.mk 1 [2]].length 0
          ++ List.replicate [Oscillator.mk 1 [2]].length 0) [0, 1] [Oscillator.mk 1 [2]]
        = some [[0, 0], [0, 0]])
    ∧ ((∀ row ∈ [[(0:ℚ), 0], [0, 0]], row = List.replicate (1 + 1) 0)
        ∧ maxAmplitude [[(0:ℚ), 0], [0, 0]] 1 = 0) := by
  have hcomp : runge_kutta_4 derivatives
      (List.replicate [Oscillator.mk 1 [2]].length 0
        ++ List.replicate [Oscillator.mk 1 [2]].length 0) [0, 1] [Oscillator.mk 1 [2]]
      = some [[0, 0], [0, 0]] := by
    norm_num [runge_kutta_4, rk4Traj, rk4Step, derivatives, equationOfBlock, dot, smul, vdiv,
      vadd, List.replicate]
  exact ⟨hcomp, zero_initial_state_zero_trajectory [Oscillator.mk 1 [2]] [0, 1]
    [[0, 0], [0, 0]] hcomp⟩

/-- C9 counterexample: an input with a non-positive mass (`mass = -1`)
is not rejected; the core runs the stiffness conditioning, builds the
model and integrates to completion, returning a full trajectory instead
of failing fast with an InvalidInput error.  (No InvalidInput check of
any kind exists in the source.) -/
theorem no_input_validation_counterexample :
    simulate_core 1 [-1] [[1]] [1] [0] [0, 1] = some [[1, 0], [37/24, 7/6]]
    ∧ (-1 : ℚ) ≤ 0 := by
  constructor
  · norm_num [simulate_core, buildOscillators, List.range_succ, runge_kutta_4, rk4Traj,
      rk4Step, derivatives, equationOfBlock, dot, smul, vdiv, vadd]
  · norm_num

/-- C9 amended: the core performs no input validation at all.  For
well-shaped inputs (mass and row counts `n`, each stiffness row of
length `n`, displacement and velocity vectors of length `n` — the
shapes on which the source runs to completion; a mismatched shape only
surfaces later as a generic indexing or broadcasting error, after
conditioning has already run) it completes integration and returns a
trajectory for arbitrary mass values, including masses ≤ 0; no
InvalidInput error is ever raised. -/
theorem simulate_core_no_validation (n : ℕ) (masses : List ℚ) (kRows : List (List ℚ))
    (d0 v0 t : List ℚ) (hm : masses.length = n) (hk : kRows.length = n)
    (hrows : ∀ row ∈ kRows, row.length = n) (hd0 : d0.length = n) (hv0 : v0.length = n)
    (ht : t ≠ []) :
    ∃ traj, simulate_core n masses kRows d0 v0 t = some traj := by
  unfold simulate_core buildOscillators
  rw [if_pos ⟨by omega, by omega⟩]
  cases t with
  | nil => exact absurd rfl ht
  | cons t0 ts => exact ⟨_, rfl⟩

/-- Witness for C9: the negative-mass input of the counterexample also
satisfies the amended statement's shape hypotheses. -/
theorem simulate_core_no_validation_witness :
    ([(-1 : ℚ)].length = 1 ∧ [[(1:ℚ)]].length = 1 ∧ (∀ row ∈ [[(1:ℚ)]], row.length = 1)
      ∧ [(1:ℚ)].length = 1 ∧ [(0:ℚ)].length = 1 ∧ ([(0:ℚ), 1] ≠ []) ∧ ((-1:ℚ) ≤ 0))
    ∧ ∃ traj, simulate_core 1 [-1] [[1]] [1] [0] [0, 1] = some traj :=
  ⟨⟨rfl, rfl, by simp, rfl, rfl, by simp, by norm_num⟩,
    simulate_core_no_validation 1 [-1] [[1]] [1] [0] [0, 1] rfl rfl (by simp) rfl rfl (by simp)⟩

/-- C4: the conditioned stiffness matrix is symmetric entrywise, for
every eigensolver output, and so is the symmetrised matrix formed from
any square input. -/
theorem make_positive_definite_symm {n : ℕ} (K : Matrix (Fin n) (Fin n) ℚ)
    (eigvals : Fin n → ℚ) (eigvecs : Matrix (Fin n) (Fin n) ℚ) (i j : Fin n) :
    make_positive_definite eigvals eigvecs i j = make_positive_definite eigvals eigvecs j i
    ∧ symmetrize K i j = symmetrize K j i := by
  constructor
  · have h : (make_positive_definite eigvals eigvecs).transpose
        = make_positive_definite eigvals eigvecs := by
      unfold make_positive_definite
      rw [Matrix.transpose_mul, Matrix.transpose_mul, Matrix.transpose_transpose,
        Matrix.diagonal_transpose, Matrix.mul_assoc]
    exact (Matrix.transpose_apply (make_positive_definite eigvals eigvecs) j i).symm.trans
      (congrFun (congrFun h j) i)
  · show (K i j + K j i) / 2 = (K j i + K i j) / 2
    ring

/-- C3 counterexample: at the square input `K = [[0]]` the symmetrised
matrix is `[[0]]`, whose (unique) orthonormal eigendecomposition is the
eigenvalue vector `[0]` with the identity eigenvector matrix; the
conditioned output is again `[[0]]`, which has the nonzero eigenvector
`[1]` with eigenvalue `0`, and `0` is not at least the floor `1e-6`.
The clamp touches only strictly negative eigenvalues, so an eigenvalue
of exactly zero survives below the floor. -/
theorem make_positive_definite_floor_counterexample :
    symmetrize !![(0:ℚ)] = !![(0:ℚ)]
    ∧ (1 : Matrix (Fin 1) (Fin 1) ℚ).transpose * 1 = 1
    ∧ (1 : Matrix (Fin 1) (Fin 1) ℚ) * Matrix.diagonal ![(0:ℚ)]
        * (1 : Matrix (Fin 1) (Fin 1) ℚ).transpose = !![(0:ℚ)]
    ∧ (make_positive_definite ![(0:ℚ)] 1).mulVec ![1] = (0:ℚ) • ![1]
    ∧ ![(1:ℚ)] ≠ 0
    ∧ ¬ ((1:ℚ)/1000000 ≤ 0) := by
  refine ⟨?_, by simp, ?_, ?_, ?_, by norm_num⟩
  · ext i j
    fin_cases i
    fin_cases j
    simp [symmetrize]
  · ext i j
    fin_cases i
    fin_cases j
    simp [Matrix.transpose_one, Matrix.mul_one, Matrix.one_mul]
  · funext i
    fin_cases i
    simp [make_positive_definite, Matrix.transpose_one, Matrix.mul_one, Matrix.one_mul,
      Matrix.mulVec_diagonal, clampEig]
  · intro h
    have h0 := congrFun h 0
    simp at h0

/-- C3 amended: for every eigensolver output with orthonormal
eigenvectors, every eigenvalue of the conditioned matrix is one of the
clamped values, hence nonnegative: a negative eigenvalue is replaced by
the floor `1e-6` and a nonnegative one is left unchanged (so an
eigenvalue in `[0, 1e-6)` stays below the floor). -/
theorem make_positive_definite_psd {n : ℕ} (eigvals : Fin n → ℚ)
    (eigvecs : Matrix (Fin n) (Fin n) ℚ) (hV : eigvecs.transpose * eigvecs = 1)
    (μ : ℚ) (v : Fin n → ℚ) (hv : v ≠ 0)
    (hμ : (make_positive_definite eigvals eigvecs).mulVec v = μ • v) :
    0 ≤ μ ∧ ∃ i, μ = clampEig (eigvals i)
      ∧ (eigvals i < 0 → μ = 1 / 1000000) ∧ (0 ≤ eigvals i → μ = eigvals i) := by
  have hV' : eigvecs * eigvecs.transpose = 1 := Matrix.mul_eq_one_comm.mp hV
  have step1 : eigvecs.transpose.mulVec ((make_positive_definite eigvals eigvecs).mulVec v)
      = μ • eigvecs.transpose.mulVec v := by
    rw [hμ, Matrix.mulVec_smul]
  rw [Matrix.mulVec_mulVec] at step1
  have hVDV : eigvecs.transpose * make_positive_definite eigvals eigvecs
      = (Matrix.diagonal fun i => clampEig (eigvals i)) * eigvecs.transpose := by
    unfold make_positive_definite
    rw [← Matrix.mul_assoc, ← Matrix.mul_assoc, hV, Matrix.one_mul]
  rw [hVDV, ← Matrix.mulVec_mulVec] at step1
  have hwne : eigvecs.transpose.mulVec v ≠ 0 := by
    intro h0
    apply hv
    calc v = Matrix.mulVec 1 v := (Matrix.one_mulVec v).symm
      _ = (eigvecs * eigvecs.transpose).mulVec v := by rw [hV']
      _ = eigvecs.mulVec (eigvecs.transpose.mulVec v) := (Matrix.mulVec_mulVec v _ _).symm
      _ = eigvecs.mulVec 0 := by rw [h0]
      _ = 0 := Matrix.mulVec_zero _
  obtain ⟨i, hi⟩ := Function.ne_iff.mp hwne
  have hi' : eigvecs.transpose.mulVec v i ≠ 0 := by simpa using hi
  have hDi := congrFun step1 i
  rw [Matrix.mulVec_diagonal] at hDi
  have hDi' : clampEig (eigvals i) * eigvecs.transpose.mulVec v i
      = μ * eigvecs.transpose.mulVec v i := by
    simpa [Pi.smul_apply, smul_eq_mul] using hDi
  have hμi : μ = clampEig (eigvals i) := (mul_right_cancel₀ hi' hDi').symm
  have hclamp : ∀ l : ℚ, 0 ≤ clampEig l := by
    intro l
    unfold clampEig
    split
    · norm_num
    · next hl => exact le_of_not_lt hl
  refine ⟨by rw [hμi]; exact hclamp _, i, hμi, ?_, ?_⟩
  · intro hneg
    rw [hμi]
    simp [clampEig, hneg]
  · intro hpos
    rw [hμi]
    simp [clampEig, not_lt.mpr hpos]

/-- Witness for the amended C3 at the eigenvalue `-5` with identity
eigenvectors: the clamped eigenvalue is `1e-6 ≥ 0`. -/
theorem make_positive_definite_psd_witness :
    (((1 : Matrix (Fin 1) (Fin 1) ℚ).transpose * 1 = 1)
      ∧ (![(1:ℚ)] ≠ 0)
      ∧ (make_positive_definite ![(-5:ℚ)] 1).mulVec ![1] = ((1:ℚ)/1000000) • ![1])
    ∧ (0 ≤ (1:ℚ)/1000000 ∧ ∃ i : Fin 1, (1:ℚ)/1000000 = clampEig (![(-5:ℚ)] i)
        ∧ (![(-5:ℚ)] i < 0 → (1:ℚ)/1000000 = 1 / 1000000)
        ∧ (0 ≤ ![(-5:ℚ)] i → (1:ℚ)/1000000 = ![(-5:ℚ)] i)) := by
  have h1 : (1 : Matrix (Fin 1) (Fin 1) ℚ).transpose * 1 = 1 := by simp
  have h2 : ![(1:ℚ)] ≠ 0 := by
    intro h
    have h0 := congrFun h 0
    simp at h0
  have h3 : (make_positive_definite ![(-5:ℚ)] 1).mulVec ![1] = ((1:ℚ)/1000000) • ![1] := by
    funext i
    fin_cases i
    simp [make_positive_definite, Matrix.transpose_one, Matrix.mul_one, Matrix.one_mul,
      Matrix.mulVec_diagonal, clampEig]
  exact ⟨⟨h1, h2, h3⟩, make_positive_definite_psd ![(-5)] 1 h1 (1/1000000) ![1] h2 h3⟩
